

import Mathlib

set_option maxHeartbeats 1000000

deriving instance DecidableEq for Except

/-- Strings from the source are modelled as lists of characters. -/
abbrev Name := List Char

/-- Filesystem paths are modelled as lists of path components. -/
abbrev FsPath := List Name

/-- Model of char::to_ascii_lowercase from the source: maps A-Z to a-z and
leaves every other character unchanged. -/
def asciiLower (c : Char) : Char :=
  if 'A' ≤ c ∧ c ≤ 'Z' then Char.ofNat (c.toNat + 32) else c

/-- Maximum value of a u64, the saturation bound of extract_number. -/
def U64MAX : Nat := 18446744073709551615

/-- Model of extract_number from src/src/file_ops/mod.rs: consumes the maximal
leading run of ASCII digits, accumulating the value with u64 saturating
multiplication and addition, and returns the value together with the
unconsumed remainder of the string. -/
def extract_number : Nat → Name → Nat × Name
  | num, [] => (num, [])
  | num, c :: rest =>
    if c.isDigit then
      extract_number (min (min (num * 10) U64MAX + (c.toNat - 48)) U64MAX) rest
    else (num, c :: rest)

/-- Fuelled worker for natural_cmp.  Each loop iteration of the source
consumes at least one character of the left string, so fuel equal to the
length of the left string suffices; the fuel-exhausted branch is unreachable
under that bound (see naturalCmpGo_fuel_irrel). -/
def naturalCmpGo : Nat → Name → Name → Ordering
  | _, [], [] => .eq
  | _, [], _ :: _ => .lt
  | _, _ :: _, [] => .gt
  | 0, _ :: _, _ :: _ => .eq
  | fuel + 1, ac :: arest, bc :: brest =>
    if ac.isDigit ∧ bc.isDigit then
      let pa := extract_number 0 (ac :: arest)
      let pb := extract_number 0 (bc :: brest)
      match compare pa.1 pb.1 with
      | .eq => naturalCmpGo fuel pa.2 pb.2
      | o => o
    else
      match compare (asciiLower ac) (asciiLower bc) with
      | .eq => naturalCmpGo fuel arest brest
      | o => o

/-- Model of natural_cmp from src/src/file_ops/mod.rs: walks both strings in
lockstep; when both current characters are ASCII digits it compares the
maximal digit runs by saturated numeric value and continues only on equality;
otherwise it compares the two characters after ASCII lowercasing, advancing
one position on equality. -/
def natural_cmp (a b : Name) : Ordering :=
  naturalCmpGo a.length a b

/-- Stable insertion used to model the stable sort (Vec::sort_by) applied by
scan_directory: an element is placed before the first element strictly
greater than it under natural_cmp. -/
def naturalInsert (x : Name) : List Name → List Name
  | [] => [x]
  | y :: ys => if natural_cmp x y = .lt then x :: y :: ys else y :: naturalInsert x ys

/-- Model of files.sort_by(natural_cmp) from scan_directory: stable insertion
sort under the natural ordering. -/
def naturalSort (l : List Name) : List Name :=
  l.foldl (fun acc x => naturalInsert x acc) []

/-- Fuelled worker for the all-occurrences literal replacement str::replace.
Fuel equal to the length of the scanned string suffices when the pattern is
nonempty since every step consumes at least one character. -/
def strReplaceGo (pat repl : Name) : Nat → Name → Name
  | _, [] => []
  | 0, s => s
  | fuel + 1, c :: rest =>
    if pat.isPrefixOf (c :: rest) then
      repl ++ strReplaceGo pat repl fuel ((c :: rest).drop pat.length)
    else c :: strReplaceGo pat repl fuel rest

/-- Model of Rust str::replace(pat, repl): replaces every non-overlapping
occurrence of pat, scanning left to right.  An empty pattern matches at every
character boundary, exactly as in Rust. -/
def str_replace (s pat repl : Name) : Name :=
  match pat with
  | [] => repl ++ s.flatMap (fun c => c :: repl)
  | _ :: _ => strReplaceGo pat repl s.length s

/-- Case-insensitive prefix test: the regex built by replace_case_insensitive
from the escaped pattern with case_insensitive(true) matches a literal
occurrence of the pattern up to ASCII case. -/
def ciPrefix (pat s : Name) : Bool :=
  (pat.map asciiLower).isPrefixOf (s.map asciiLower)

/-- Word characters of the regex crate replacement-string syntax. -/
def isWordChar (c : Char) : Bool :=
  c.isDigit || c.isAlpha || c == '_'

/-- Decimal value of a digit string (the capture-group index parse). -/
def digitsVal (l : Name) : Nat :=
  l.foldl (fun acc c => acc * 10 + (c.toNat - 48)) 0

/-- Substitution of one capture-group reference of the regex crate: the
pattern given to the engine is a regex::escape-d literal, so group 0 (the
whole match) is the only capture group; any other reference is replaced by
the empty string. -/
def groupSubst (g matched : Name) : Name :=
  if g ≠ [] ∧ g.all Char.isDigit ∧ digitsVal g = 0 then matched else []

/-- Fuelled worker for the regex crate interpolation of a replacement string
(the expansion performed by Regex::replace_all when the replacement is a
plain string): a dollar sign introduces a group reference ($$ is a literal
dollar, a brace-delimited or maximal word-character name references a group,
a dollar not followed by a name is literal). -/
def expandGo (matched : Name) : Nat → Name → Name
  | _, [] => []
  | 0, r => r
  | fuel + 1, '$' :: '$' :: rest => '$' :: expandGo matched fuel rest
  | fuel + 1, '$' :: '\x7b' :: rest =>
    let nm := rest.takeWhile (fun c => c ≠ '\x7d')
    if rest.drop nm.length ≠ [] ∧ nm ≠ [] then
      groupSubst nm matched ++ expandGo matched fuel (rest.drop (nm.length + 1))
    else '$' :: expandGo matched fuel ('\x7b' :: rest)
  | fuel + 1, '$' :: c :: rest =>
    let nm := (c :: rest).takeWhile isWordChar
    if nm = [] then '$' :: expandGo matched fuel (c :: rest)
    else groupSubst nm matched ++ expandGo matched fuel ((c :: rest).drop nm.length)
  | _ + 1, ['$'] => ['$']
  | fuel + 1, c :: rest => c :: expandGo matched fuel rest

/-- Expansion of a replacement string against a match (regex crate semantics
for a pattern without capture groups other than the whole match). -/
def expandRepl (repl matched : Name) : Name :=
  expandGo matched repl.length repl

/-- Fuelled worker for the case-insensitive replace-all of
replace_case_insensitive: scans left to right, replacing every leftmost
case-insensitive occurrence of the literal pattern by the expanded
replacement string. -/
def ciReplaceGo (pat repl : Name) : Nat → Name → Name
  | _, [] => []
  | 0, s => s
  | fuel + 1, c :: rest =>
    if ciPrefix pat (c :: rest) then
      expandRepl repl ((c :: rest).take pat.length) ++
        ciReplaceGo pat repl fuel ((c :: rest).drop pat.length)
    else c :: ciReplaceGo pat repl fuel rest

/-- Model of replace_case_insensitive from src/src/rename/mod.rs: builds a
case-insensitive regex from the regex::escape-d pattern and applies
Regex::replace_all with the given replacement string (which therefore
undergoes dollar-reference expansion).  Case folding is modelled at ASCII
granularity, which coincides with the engine on ASCII strings. -/
def replace_case_insensitive (text pat repl : Name) : Name :=
  match pat with
  | [] => expandRepl repl [] ++ text.flatMap (fun c => c :: expandRepl repl [])
  | _ :: _ => ciReplaceGo pat repl text.length text

/-- Substring occurrence test, modelling str::contains for a literal pattern:
the pattern occurs as a prefix of some suffix of the string. -/
def containsSub : Name → Name → Bool
  | [], sub => sub.isEmpty
  | c :: rest, sub => sub.isPrefixOf (c :: rest) || containsSub rest sub

/-- Case-insensitive substring occurrence test (occurrence up to ASCII case). -/
def ciContains : Name → Name → Bool
  | [], sub => sub.isEmpty
  | c :: rest, sub => ciPrefix sub (c :: rest) || ciContains rest sub

/-- Model of str::to_lowercase as used by detect_conflicts, at ASCII
granularity (it coincides with the Rust function on ASCII strings). -/
def lowercase (n : Name) : Name := n.map asciiLower

/-- Model of the FileEntry record of src/src/types.rs. -/
structure FileEntry where
  path : FsPath
  name : Name
deriving DecidableEq

/-- Model of the RenamePreview record of src/src/types.rs. -/
structure RenamePreview where
  original_path : FsPath
  original_name : Name
  new_name : Name
  has_conflict : Bool
deriving DecidableEq

/-- Error taxonomy of the engine; each constructor corresponds to one bail
site of the source (which reports errors as anyhow strings). -/
inductive RenameError where
  | patternTooLong
  | invalidPattern
  | missingPlaceholder
  | targetExists
  | duplicateTarget
  | renameFailed
deriving DecidableEq

/-- Input limit MAX_PATTERN_LENGTH from src/src/theme.rs. -/
def MAX_PATTERN_LENGTH : Nat := 1024

/-- The per-preview marking step of detect_conflicts: a preview is marked
when its lowercased new name occurs more than once in the batch. -/
def conflictMark (previews : List RenamePreview) (p : RenamePreview) : RenamePreview :=
  if 1 < previews.countP (fun q => lowercase q.new_name == lowercase p.new_name) then
    { p with has_conflict := true }
  else p

/-- Model of detect_conflicts from src/src/rename/mod.rs: counts previews per
lowercased new name and marks has_conflict on every preview whose lowercased
new name occurs more than once in the batch. -/
def detect_conflicts (previews : List RenamePreview) : List RenamePreview :=
  previews.map (conflictMark previews)

/-- The per-file preview construction shared by both loops of
apply_find_replace: one preview per file whose transformed name differs from
its original name, in input order, built with has_conflict = false. -/
def findPreviews (transform : Name → Name) (files : List FileEntry) : List RenamePreview :=
  files.filterMap (fun fe =>
    let nn := transform fe.name
    if nn ≠ fe.name then
      some { original_path := fe.path, original_name := fe.name,
             new_name := nn, has_conflict := false }
    else none)

/-- Model of apply_find_replace from src/src/rename/mod.rs.  The compiled
regex engine of the use_regex branch is an external collaborator (the regex
crate); it is supplied as the oracle parameter rex: none models a pattern the
engine rejects, some f models the compiled expression whose replace-all
function is f. -/
def apply_find_replace (rex : Option (Name → Name)) (files : List FileEntry)
    (pattern replacement : Name) (use_regex case_sensitive : Bool) :
    Except RenameError (List RenamePreview) :=
  if pattern = [] then .ok []
  else if MAX_PATTERN_LENGTH < pattern.length then .error .patternTooLong
  else if use_regex then
    match rex with
    | none => .error .invalidPattern
    | some f => .ok (detect_conflicts (findPreviews f files))
  else if case_sensitive then
    .ok (detect_conflicts (findPreviews (fun n => str_replace n pattern replacement) files))
  else
    .ok (detect_conflicts (findPreviews (fun n => replace_case_insensitive n pattern replacement) files))

/-- Maximum value of a u32, the saturation bound of the sequence number. -/
def U32MAX : Nat := 4294967295

/-- Saturating u32 addition (u32::saturating_add). -/
def u32SatAdd (a b : Nat) : Nat := min (a + b) U32MAX

/-- Decimal rendering of a natural number. -/
def natRepr (n : Nat) : Name := Nat.toDigits 10 n

/-- Zero left-padding to a given width, the format specification 0>width of
the source: never truncates a rendering wider than the padding. -/
def padNumber (padding n : Nat) : Name :=
  List.replicate (padding - (natRepr n).length) '0' ++ natRepr n

/-- The literal placeholder token of the iteration template. -/
def placeholderTok : Name := "{n}".data

/-- Extension of a file name, following Path::extension: the portion after
the last dot, where a dot at the first position does not count (so a leading
dot alone yields no extension). -/
def extSplit (f : Name) : Option Name :=
  let revExt := f.reverse.takeWhile (fun c => c ≠ '.')
  match f.reverse.dropWhile (fun c => c ≠ '.') with
  | [] => none
  | _ :: before => if before = [] then none else some revExt.reverse

/-- Extension of the last path component (Path::extension on the model). -/
def extensionOf (p : FsPath) : Option Name :=
  match p.getLast? with
  | none => none
  | some f => extSplit f

/-- The extension suffix appended by apply_iteration_numbering: a dot plus
the extension when present, empty otherwise. -/
def extSuffix (p : FsPath) : Name :=
  match extensionOf p with
  | some e => '.' :: e
  | none => []

/-- One iteration preview: the file at 0-based position idx receives the
template with every placeholder occurrence replaced by the padded rendering
of start_number.saturating_add(idx as u32); the usize-to-u32 cast of the
source is the truncation idx mod 2^32. -/
def mkIterPreview (template : Name) (start_number padding idx : Nat) (fe : FileEntry) :
    RenamePreview :=
  { original_path := fe.path, original_name := fe.name,
    new_name := str_replace template placeholderTok
        (padNumber padding (u32SatAdd start_number (idx % 4294967296))) ++ extSuffix fe.path,
    has_conflict := false }

/-- The enumerated loop of apply_iteration_numbering. -/
def iterPreviews (template : Name) (start_number padding : Nat) :
    List FileEntry → Nat → List RenamePreview
  | [], _ => []
  | fe :: rest, idx =>
    mkIterPreview template start_number padding idx fe ::
      iterPreviews template start_number padding rest (idx + 1)

/-- Model of apply_iteration_numbering from src/src/rename/mod.rs.
start_number is the u32 parameter of the source (so its values lie below
2^32). -/
def apply_iteration_numbering (files : List FileEntry) (template : Name)
    (start_number padding : Nat) : Except RenameError (List RenamePreview) :=
  if containsSub template placeholderTok then
    .ok (detect_conflicts (iterPreviews template start_number padding files 0))
  else .error .missingPlaceholder

/-- Model of Settings::sanitize from src/src/settings.rs: the zero-padding
width is capped at 10 when settings are sanitized. -/
def sanitizePadding (padding : Nat) : Nat :=
  if 10 < padding then 10 else padding

/-- Model of the padding clamp of load_settings / save_settings from
src/src/settings.rs: a stored padding value is clamped with min 10. -/
def loadPadding (parsed : Nat) : Nat := min parsed 10

/-- The filesystem is a finite map from paths to file identities, as an
association list (first binding wins).  Only renames within one directory are
performed by the engine, so directory structure beyond path equality is not
modelled. -/
abbrev FS := List (FsPath × Nat)

/-- A trace of the rename system calls actually performed, in order:
each entry is (source path, destination path). -/
abbrev Trace := List (FsPath × FsPath)

/-- Lookup of a path in the filesystem. -/
def fsLookup : FS → FsPath → Option Nat
  | [], _ => none
  | (q, v) :: rest, p => if p = q then some v else fsLookup rest p

/-- Existence test of a path (Path::exists on the model). -/
def fsExists (fs : FS) (p : FsPath) : Bool :=
  (fsLookup fs p).isSome

/-- Removal of a path binding (the retain / filter of the model). -/
def fsRemove : FS → FsPath → FS
  | [], _ => []
  | (q, v) :: rest, p => if q = p then fsRemove rest p else (q, v) :: fsRemove rest p

/-- Model of fs::rename within one directory (POSIX semantics: the source
must exist, an existing destination is replaced atomically).  Returns none
when the rename call fails. -/
def fsRename (fs : FS) (src dst : FsPath) : Option FS :=
  match fsLookup fs src with
  | none => none
  | some v => some ((dst, v) :: fsRemove (fsRemove fs src) dst)

/-- Parent-join of the source: original_path.parent().unwrap_or(original_path)
followed by join(new_name).  On the component model the parent of a nonempty
path drops the last component and the parent fallback for the empty path is
the empty path itself. -/
def parentJoin (p : FsPath) (nm : Name) : FsPath :=
  p.dropLast ++ [nm]

/-- Resolved target path of one preview. -/
def targetPath (p : RenamePreview) : FsPath :=
  parentJoin p.original_path p.new_name

/-- The process-unique temporary-name marker, .rename_temp_ then the process
id then an underscore, with the
process id supplied as a parameter. -/
def tempPre (pid : Name) : Name :=
  ".rename_temp_".data ++ pid ++ "_".data

/-- Temporary name of one preview in phase 1: prefix plus intended final name. -/
def tempName (pid : Name) (nm : Name) : Name :=
  tempPre pid ++ nm

/-- Temporary path of one preview in phase 1. -/
def tempPathOf (pid : Name) (p : RenamePreview) : FsPath :=
  p.original_path.dropLast ++ [tempName pid p.new_name]

/-- Final path of one preview in phase 1 and 2. -/
def finalPathOf (p : RenamePreview) : FsPath :=
  p.original_path.dropLast ++ [p.new_name]

/-- The pre-validation loop of validate_and_rename: for each preview in
order, fail with targetExists when the resolved target exists on disk and is
not one of the original paths of the batch, then fail with duplicateTarget
when the target was already produced by an earlier preview. -/
def checkTargets (fs : FS) (origs : List FsPath) :
    List RenamePreview → List FsPath → Except RenameError Unit
  | [], _ => .ok ()
  | p :: rest, seen =>
    if fsExists fs (targetPath p) ∧ targetPath p ∉ origs then .error .targetExists
    else if targetPath p ∈ seen then .error .duplicateTarget
    else checkTargets fs origs rest (targetPath p :: seen)

/-- Phase 1 of the commit: previews whose new name equals their original name
are skipped; every other preview is renamed to its temporary path, recording
the pair (temporary path, final path) in order.  A failing rename call stops
the phase immediately, leaving earlier files at their temporary names. -/
def phase1 (pid : Name) (fs : FS) (tr : Trace) :
    List RenamePreview → FS × Trace × Except RenameError (List (FsPath × FsPath))
  | [] => (fs, tr, .ok [])
  | p :: rest =>
    if p.original_name = p.new_name then phase1 pid fs tr rest
    else
      match fsRename fs p.original_path (tempPathOf pid p) with
      | none => (fs, tr, .error .renameFailed)
      | some fs2 =>
        match phase1 pid fs2 (tr ++ [(p.original_path, tempPathOf pid p)]) rest with
        | (fs3, tr3, .ok pairs) => (fs3, tr3, .ok ((tempPathOf pid p, finalPathOf p) :: pairs))
        | err => err

/-- Phase 2 of the commit: every recorded temporary file is renamed to its
final path, counting the files renamed. -/
def phase2 (fs : FS) (tr : Trace) (count : Nat) :
    List (FsPath × FsPath) → FS × Trace × Except RenameError Nat
  | [] => (fs, tr, .ok count)
  | (t, f) :: rest =>
    match fsRename fs t f with
    | none => (fs, tr, .error .renameFailed)
    | some fs2 => phase2 fs2 (tr ++ [(t, f)]) (count + 1) rest

/-- Model of validate_and_rename from src/src/file_ops/mod.rs: an empty batch
is a no-op returning zero; otherwise the targets are validated without any
mutation, then phase 1 moves every changed file to its temporary path and
phase 2 moves every temporary file to its final path.  The result carries the
final filesystem, the trace of performed rename calls in order, and the count
or error. -/
def validate_and_rename (pid : Name) (fs : FS) (previews : List RenamePreview) :
    FS × Trace × Except RenameError Nat :=
  if previews = [] then (fs, [], .ok 0)
  else
    match checkTargets fs (previews.map (fun p => p.original_path)) previews [] with
    | .error e => (fs, [], .error e)
    | .ok () =>
      match phase1 pid fs [] previews with
      | (fs1, tr1, .error e) => (fs1, tr1, .error e)
      | (fs1, tr1, .ok pairs) => phase2 fs1 tr1 0 pairs

/-- The changed previews: those given a phase-1 entry by the source. -/
def changedPreviews (previews : List RenamePreview) : List RenamePreview :=
  previews.filter (fun p => p.original_name ≠ p.new_name)

/-- A string does not start with an ASCII digit. -/
def notDigitStart : Name → Bool
  | [] => true
  | c :: _ => !c.isDigit

/-- Definition of the witness input for C5: the iteration example of the
specification, two files in explicit non-alphabetical order. -/
def c5files : List FileEntry :=
  [{ path := ["b.txt".data], name := "b.txt".data },
   { path := ["a.txt".data], name := "a.txt".data }]

/-- Witness input for C6: two files whose replaced names collide up to case. -/
def c6files : List FileEntry :=
  [{ path := ["d".data, "a.txt".data], name := "a.txt".data },
   { path := ["d".data, "A.txt".data], name := "A.txt".data }]

/-- Witness output for C6: both previews marked as conflicting. -/
def c6out : List RenamePreview :=
  [{ original_path := ["d".data, "a.txt".data], original_name := "a.txt".data,
     new_name := "a.md".data, has_conflict := true },
   { original_path := ["d".data, "A.txt".data], original_name := "A.txt".data,
     new_name := "A.md".data, has_conflict := true }]

/-- The first preview of the C6 witness batch. -/
def c6p0 : RenamePreview :=
  { original_path := ["d".data, "a.txt".data], original_name := "a.txt".data,
    new_name := "a.md".data, has_conflict := true }

/-- The per-mode name transform of apply_find_replace (the body of the
respective loop): the compiled regex engine, literal replacement, or
case-insensitive replacement. -/
def frTransform (rex : Option (Name → Name)) (pattern replacement : Name)
    (use_regex case_sensitive : Bool) : Name → Name :=
  if use_regex then fun n => (rex.getD id) n
  else if case_sensitive then fun n => str_replace n pattern replacement
  else fun n => replace_case_insensitive n pattern replacement

/-- Witness input for C8: one file containing the pattern, one not. -/
def c8files : List FileEntry :=
  [{ path := ["a.b".data], name := "a.b".data },
   { path := ["c.d".data], name := "c.d".data }]

/-- A preview whose resolved target exists on disk and is not one of the
given original paths (the targetExists condition of the validation pass). -/
def badTarget (fs : FS) (origs : List FsPath) (p : RenamePreview) : Prop :=
  fsExists fs (targetPath p) = true ∧ targetPath p ∉ origs

instance (fs : FS) (origs : List FsPath) (p : RenamePreview) :
    Decidable (badTarget fs origs p) := by
  unfold badTarget
  exact inferInstance

/-- Witness filesystem for C3. -/
def c3fs : FS := [(["a".data], 0), (["c".data], 2)]

/-- Witness batch for C3: one changed preview and one no-op preview. -/
def c3previews : List RenamePreview :=
  [{ original_path := ["a".data], original_name := "a".data,
     new_name := "b".data, has_conflict := false },
   { original_path := ["c".data], original_name := "c".data,
     new_name := "c".data, has_conflict := false }]

/-- Witness filesystem for C1, first scenario: the target b exists on disk. -/
def c1fsA : FS := [(["b".data], 0)]

/-- Witness batch for C1, first scenario: a rename onto the existing b. -/
def c1psA : List RenamePreview :=
  [{ original_path := ["a".data], original_name := "a".data,
     new_name := "b".data, has_conflict := false }]

/-- Witness batch for C1, second scenario: two previews with one target. -/
def c1psB : List RenamePreview :=
  [{ original_path := ["a".data], original_name := "a".data,
     new_name := "x".data, has_conflict := false },
   { original_path := ["b".data], original_name := "b".data,
     new_name := "x".data, has_conflict := false }]

theorem extract_number_length_le (l : Name) : ∀ num, (extract_number num l).2.length ≤ l.length := by
  induction l with
  | nil => intro num; simp [extract_number]
  | cons c rest ih =>
    intro num
    simp only [extract_number]
    split
    · exact Nat.le_trans (ih _) (Nat.le_succ _)
    · simp

theorem extract_number_length_lt (c : Char) (rest : Name) (h : c.isDigit = true) :
    ∀ num, (extract_number num (c :: rest)).2.length < (c :: rest).length := by
  intro num
  simp only [extract_number, h, if_pos]
  exact Nat.lt_succ_of_le (extract_number_length_le rest _)

theorem naturalCmpGo_fuel_irrel :
    ∀ (f : Nat) (a b : Name) (g : Nat), a.length ≤ f → a.length ≤ g →
      naturalCmpGo f a b = naturalCmpGo g a b := by
  intro f
  induction f with
  | zero =>
    intro a b g hf _
    have : a = [] := List.eq_nil_of_length_eq_zero (Nat.le_zero.mp hf)
    subst this
    cases b <;> cases g <;> rfl
  | succ f ih =>
    intro a b g hf hg
    match a, b with
    | [], [] => cases g <;> rfl
    | [], _ :: _ => cases g <;> rfl
    | _ :: _, [] => cases g <;> rfl
    | ac :: arest, bc :: brest =>
      match g, hg with
      | g + 1, hg =>
        show naturalCmpGo (f + 1) (ac :: arest) (bc :: brest)
            = naturalCmpGo (g + 1) (ac :: arest) (bc :: brest)
        simp only [naturalCmpGo]
        by_cases hd : ac.isDigit ∧ bc.isDigit
        · simp only [if_pos hd]
          have hlt := extract_number_length_lt ac arest hd.1 0
          have hle : (extract_number 0 (ac :: arest)).2.length ≤ f := by
            simp only [List.length_cons] at hlt hf
            omega
          have hle2 : (extract_number 0 (ac :: arest)).2.length ≤ g := by
            simp only [List.length_cons] at hlt hg
            omega
          rw [ih _ _ g hle hle2]
        · simp only [if_neg hd]
          have hle : arest.length ≤ f := by
            simp only [List.length_cons] at hf; omega
          have hle2 : arest.length ≤ g := by
            simp only [List.length_cons] at hg; omega
          rw [ih _ _ g hle hle2]

theorem natural_cmp_nil_nil : natural_cmp [] [] = .eq := rfl

theorem natural_cmp_nil_cons (c : Char) (l : Name) : natural_cmp [] (c :: l) = .lt := rfl

theorem natural_cmp_cons_nil (c : Char) (l : Name) : natural_cmp (c :: l) [] = .gt := rfl

/-- Unfolding equation for natural_cmp on two nonempty strings, recovering
the loop body of the source. -/
theorem natural_cmp_cons (ac bc : Char) (arest brest : Name) :
    natural_cmp (ac :: arest) (bc :: brest) =
      if ac.isDigit ∧ bc.isDigit then
        match compare (extract_number 0 (ac :: arest)).1 (extract_number 0 (bc :: brest)).1 with
        | .eq => natural_cmp (extract_number 0 (ac :: arest)).2 (extract_number 0 (bc :: brest)).2
        | o => o
      else
        match compare (asciiLower ac) (asciiLower bc) with
        | .eq => natural_cmp arest brest
        | o => o := by
  show naturalCmpGo (arest.length + 1) (ac :: arest) (bc :: brest) = _
  simp only [naturalCmpGo]
  by_cases hd : ac.isDigit ∧ bc.isDigit
  · simp only [if_pos hd]
    have hlt := extract_number_length_lt ac arest hd.1 0
    have hle : (extract_number 0 (ac :: arest)).2.length ≤ arest.length := by
      simp only [List.length_cons] at hlt; omega
    rw [naturalCmpGo_fuel_irrel arest.length _ _ _ hle (Nat.le_refl _)]
    rfl
  · simp only [if_neg hd]
    rw [naturalCmpGo_fuel_irrel arest.length _ _ _ (Nat.le_refl _) (Nat.le_refl _)]
    rfl

theorem compare_char_self (c : Char) : compare c c = .eq := by
  simp [compare, compareOfLessAndEq]

theorem compare_nat_self (n : Nat) : compare n n = .eq := by
  simp [Nat.compare_eq_eq]

/-- The remainder left by extract_number never starts with a digit (the
consumed run is maximal). -/
theorem extract_number_rest_notDigit (l : Name) :
    ∀ num, notDigitStart (extract_number num l).2 = true := by
  induction l with
  | nil => intro num; rfl
  | cons c rest ih =>
    intro num
    by_cases hc : c.isDigit
    · simp only [extract_number, hc, if_pos]
      exact ih _
    · simp only [extract_number, hc, if_neg, Bool.not_eq_true]
      simp [notDigitStart, hc]

/-- The accumulated value of extract_number is monotone in the accumulator
and stays within the u64 range. -/
theorem extract_number_ge_le (l : Name) :
    ∀ num, num ≤ U64MAX → num ≤ (extract_number num l).1 ∧ (extract_number num l).1 ≤ U64MAX := by
  induction l with
  | nil => intro num h; exact ⟨Nat.le_refl _, h⟩
  | cons c rest ih =>
    intro num h
    by_cases hc : c.isDigit
    · simp only [extract_number, hc, if_pos]
      have hstep : num ≤ min (min (num * 10) U64MAX + (c.toNat - 48)) U64MAX := by
        have h1 : num ≤ min (num * 10) U64MAX :=
          Nat.le_min.mpr ⟨Nat.le_mul_of_pos_right num (by omega), h⟩
        exact Nat.le_min.mpr ⟨Nat.le_trans h1 (Nat.le_add_right _ _), h⟩
      have hb : min (min (num * 10) U64MAX + (c.toNat - 48)) U64MAX ≤ U64MAX :=
        Nat.min_le_right _ _
      have := ih _ hb
      exact ⟨Nat.le_trans hstep this.1, this.2⟩
    · simp only [extract_number, hc, if_neg]
      exact ⟨Nat.le_refl _, h⟩

/-- extract_number over a digit run followed by a non-digit-headed remainder
computes the value of the run and leaves exactly the remainder. -/
theorem extract_number_append_run (ds : Name) :
    ∀ num rest, (∀ c ∈ ds, c.isDigit = true) → notDigitStart rest = true →
      extract_number num (ds ++ rest) = ((extract_number num ds).1, rest) := by
  induction ds with
  | nil =>
    intro num rest _ hrest
    match rest with
    | [] => rfl
    | c :: rrest =>
      have hc : c.isDigit = false := by
        simpa [notDigitStart] using hrest
      simp [extract_number, hc]
  | cons d ds ih =>
    intro num rest hall hrest
    have hd : d.isDigit = true := hall d (List.mem_cons_self d ds)
    simp only [List.cons_append, extract_number, hd, if_pos]
    exact ih _ rest (fun c hc => hall c (List.mem_cons_of_mem d hc)) hrest

/-- Appending to a string whose digit run ends before its end does not change
the extracted value, and the appended part stays in the remainder. -/
theorem extract_number_append_of_rest_ne (l : Name) :
    ∀ num t, (extract_number num l).2 ≠ [] →
      extract_number num (l ++ t) = ((extract_number num l).1, (extract_number num l).2 ++ t) := by
  induction l with
  | nil => intro num t h; exact absurd rfl h
  | cons c rest ih =>
    intro num t h
    by_cases hc : c.isDigit
    · simp only [extract_number, hc, if_pos, List.cons_append] at h ⊢
      exact ih _ t h
    · have hc' : c.isDigit = false := by simpa using hc
      simp [List.cons_append, extract_number, hc']

/-- Appending to a string consisting wholly of one digit run continues the
extraction into the appended part with the accumulated value. -/
theorem extract_number_append_of_rest_nil (l : Name) :
    ∀ num t, (extract_number num l).2 = [] →
      extract_number num (l ++ t) = extract_number (extract_number num l).1 t := by
  induction l with
  | nil => intro num t _; rfl
  | cons c rest ih =>
    intro num t h
    by_cases hc : c.isDigit
    · simp only [extract_number, hc, if_pos, List.cons_append] at h ⊢
      exact ih _ t h
    · have hc' : c.isDigit = false := by simpa using hc
      simp [extract_number, hc'] at h

theorem natural_cmp_self_append_aux :
    ∀ (n : Nat) (a t : Name), a.length ≤ n → t ≠ [] → natural_cmp a (a ++ t) ≠ .gt := by
  intro n
  induction n with
  | zero =>
    intro a t ha ht
    have : a = [] := List.eq_nil_of_length_eq_zero (Nat.le_zero.mp ha)
    subst this
    match t, ht with
    | c :: l, _ => simp [natural_cmp_nil_cons]
  | succ n ih =>
    intro a t ha ht
    match a with
    | [] =>
      match t, ht with
      | c :: l, _ => simp [natural_cmp_nil_cons]
    | c :: arest =>
      rw [show (c :: arest) ++ t = c :: (arest ++ t) from rfl, natural_cmp_cons]
      by_cases hd : c.isDigit
      · simp only [hd, and_self, if_true, if_pos]
        simp only [← List.cons_append]
        by_cases hrest : (extract_number 0 (c :: arest)).2 = []
        · rw [extract_number_append_of_rest_nil (c :: arest) 0 t hrest]
          have hb := extract_number_ge_le (c :: arest) 0 (Nat.zero_le _)
          have hb2 := extract_number_ge_le t (extract_number 0 (c :: arest)).1 hb.2
          rcases Nat.lt_or_ge (extract_number 0 (c :: arest)).1
              (extract_number (extract_number 0 (c :: arest)).1 t).1 with hlt | hge
          · rw [Nat.compare_eq_lt.mpr hlt]
            simp
          · have heq : (extract_number 0 (c :: arest)).1
                = (extract_number (extract_number 0 (c :: arest)).1 t).1 :=
              Nat.le_antisymm hb2.1 hge
            rw [← heq, compare_nat_self, hrest]
            match (extract_number (extract_number 0 (c :: arest)).1 t).2 with
            | [] => simp [natural_cmp_nil_nil]
            | x :: l => simp [natural_cmp_nil_cons]
        · rw [extract_number_append_of_rest_ne (c :: arest) 0 t hrest, compare_nat_self]
          have hlen := extract_number_length_lt c arest hd 0
          have : (extract_number 0 (c :: arest)).2.length ≤ n := by
            simp only [List.length_cons] at hlen ha
            omega
          exact ih _ t this ht
      · have hd' : ¬(c.isDigit ∧ c.isDigit) := fun hcc => hd hcc.1
        simp only [if_neg hd', compare_char_self]
        have : arest.length ≤ n := by
          simp only [List.length_cons] at ha
          omega
        exact ih arest t this ht

/-- Strict prefixes never sort after the longer string under natural_cmp. -/
theorem natural_cmp_strict_pre (a t : Name) (ht : t ≠ []) : natural_cmp a (a ++ t) ≠ .gt :=
  natural_cmp_self_append_aux a.length a t (Nat.le_refl _) ht

/-- Digit-run step of natural_cmp: on two strings opening with nonempty
maximal digit runs, the runs are compared by saturated numeric value and the
walk continues past them only on equality. -/
theorem natural_cmp_digit_runs (ds es arest brest : Name) (hds : ds ≠ []) (hes : es ≠ [])
    (hall1 : ∀ c ∈ ds, c.isDigit = true) (hall2 : ∀ c ∈ es, c.isDigit = true)
    (ha : notDigitStart arest = true) (hb : notDigitStart brest = true) :
    natural_cmp (ds ++ arest) (es ++ brest) =
      match compare (extract_number 0 ds).1 (extract_number 0 es).1 with
      | .eq => natural_cmp arest brest
      | o => o := by
  match ds, hds, es, hes with
  | d :: ds2, _, e :: es2, _ =>
    have hd : d.isDigit = true := hall1 d (List.mem_cons_self _ _)
    have he : e.isDigit = true := hall2 e (List.mem_cons_self _ _)
    rw [show (d :: ds2) ++ arest = d :: (ds2 ++ arest) from rfl,
        show (e :: es2) ++ brest = e :: (es2 ++ brest) from rfl,
        natural_cmp_cons, if_pos (⟨hd, he⟩ : _ ∧ _)]
    simp only [← List.cons_append]
    rw [extract_number_append_run (d :: ds2) 0 arest hall1 ha,
        extract_number_append_run (e :: es2) 0 brest hall2 hb]

/-- Character step of natural_cmp: when the two current characters are not
both digits they are compared after ASCII lowercasing, and the walk advances
one position only on equality. -/
theorem natural_cmp_char_step (ac bc : Char) (arest brest : Name)
    (h : ¬(ac.isDigit = true ∧ bc.isDigit = true)) :
    natural_cmp (ac :: arest) (bc :: brest) =
      match compare (asciiLower ac) (asciiLower bc) with
      | .eq => natural_cmp arest brest
      | o => o := by
  rw [natural_cmp_cons, if_neg h]

/-- C4 (corrected): the natural-ordering comparator compares maximal runs of
consecutive ASCII digits by saturated numeric value and continues past them
only on equality; other characters compare case-insensitively, advancing one
position on equality; sorting "file2", "file10", "file1" yields "file1",
"file2", "file10".  The strict-prefix part holds in the weakened form forced
by the counterexample: a strict prefix never sorts after the longer string
(it can tie when the extra characters extend an equal-valued digit run). -/
theorem c4_natural_ordering :
    (naturalSort ["file2".data, "file10".data, "file1".data] =
        ["file1".data, "file2".data, "file10".data])
    ∧ (∀ ds es arest brest : Name, ds ≠ [] → es ≠ [] →
        (∀ c ∈ ds, c.isDigit = true) → (∀ c ∈ es, c.isDigit = true) →
        notDigitStart arest = true → notDigitStart brest = true →
        natural_cmp (ds ++ arest) (es ++ brest) =
          match compare (extract_number 0 ds).1 (extract_number 0 es).1 with
          | .eq => natural_cmp arest brest
          | o => o)
    ∧ (∀ (ac bc : Char) (arest brest : Name), ¬(ac.isDigit = true ∧ bc.isDigit = true) →
        natural_cmp (ac :: arest) (bc :: brest) =
          match compare (asciiLower ac) (asciiLower bc) with
          | .eq => natural_cmp arest brest
          | o => o)
    ∧ (∀ a t : Name, t ≠ [] → natural_cmp a (a ++ t) ≠ .gt) :=
  ⟨by decide, natural_cmp_digit_runs, natural_cmp_char_step, natural_cmp_strict_pre⟩

/-- Witness for C4: the three hypothesized parts applied at concrete inputs. -/
theorem c4_witness :
    (natural_cmp ("12".data ++ "a".data) ("9".data ++ "b".data) =
      match compare (extract_number 0 "12".data).1 (extract_number 0 "9".data).1 with
      | .eq => natural_cmp "a".data "b".data
      | o => o)
    ∧ (natural_cmp ('a' :: "x".data) ('B' :: "y".data) =
      match compare (asciiLower 'a') (asciiLower 'B') with
      | .eq => natural_cmp "x".data "y".data
      | o => o)
    ∧ natural_cmp "file".data ("file".data ++ "1".data) ≠ .gt :=
  ⟨c4_natural_ordering.2.1 _ _ _ _ (by decide) (by decide) (by decide) (by decide)
      (by decide) (by decide),
   c4_natural_ordering.2.2.1 _ _ _ _ (by decide),
   c4_natural_ordering.2.2.2 _ _ (by decide)⟩

/-- Counterexample for C4 as stated: "a0" is a strict prefix of "a00", yet
natural_cmp compares them Equal rather than putting the prefix first, because
the extra character extends a digit run of equal saturated value. -/
theorem c4_counterexample :
    "a00".data = "a0".data ++ "0".data ∧ "a0".data ≠ "a00".data ∧
    natural_cmp "a0".data "a00".data = .eq := by decide

/-- C10 (confirmed): natural_cmp returns Equal on distinct strings whose
digit runs have equal numeric value but different text, or which differ only
in ASCII letter case; consequently a stable sort under it keeps such names in
their incoming relative order, whichever that order is. -/
theorem c10_equal_on_distinct :
    (natural_cmp "file01".data "file1".data = .eq ∧ "file01".data ≠ "file1".data)
    ∧ (natural_cmp "A.txt".data "a.txt".data = .eq ∧ "A.txt".data ≠ "a.txt".data)
    ∧ naturalSort ["file1".data, "file01".data] = ["file1".data, "file01".data]
    ∧ naturalSort ["file01".data, "file1".data] = ["file01".data, "file1".data] := by decide

theorem conflictMark_new_name (ps : List RenamePreview) (p : RenamePreview) :
    (conflictMark ps p).new_name = p.new_name := by
  unfold conflictMark; split <;> rfl

theorem conflictMark_original_path (ps : List RenamePreview) (p : RenamePreview) :
    (conflictMark ps p).original_path = p.original_path := by
  unfold conflictMark; split <;> rfl

theorem conflictMark_original_name (ps : List RenamePreview) (p : RenamePreview) :
    (conflictMark ps p).original_name = p.original_name := by
  unfold conflictMark; split <;> rfl

theorem detect_conflicts_getElem? (ps : List RenamePreview) (i : Nat) :
    (detect_conflicts ps)[i]? = (ps[i]?).map (conflictMark ps) := by
  simp [detect_conflicts, List.getElem?_map]

theorem detect_conflicts_length (ps : List RenamePreview) :
    (detect_conflicts ps).length = ps.length := by
  simp [detect_conflicts]

theorem iterPreviews_getElem? (template : Name) (start_number padding : Nat) :
    ∀ (files : List FileEntry) (i j : Nat),
      (iterPreviews template start_number padding files i)[j]? =
        (files[j]?).map (mkIterPreview template start_number padding (i + j)) := by
  intro files
  induction files with
  | nil => intro i j; simp [iterPreviews]
  | cons fe rest ih =>
    intro i j
    match j with
    | 0 => simp [iterPreviews]
    | j + 1 =>
      have harith : i + 1 + j = i + (j + 1) := by omega
      simp only [iterPreviews, List.getElem?_cons_succ, ih (i + 1) j, harith]

theorem iterPreviews_length (template : Name) (start_number padding : Nat) :
    ∀ (files : List FileEntry) (i : Nat),
      (iterPreviews template start_number padding files i).length = files.length := by
  intro files
  induction files with
  | nil => intro i; rfl
  | cons fe rest ih => intro i; simp [iterPreviews, ih]

/-- C5 (corrected): for every file list of at most 2^32 entries and template
containing the placeholder, the iteration strategy yields exactly one preview
per input file in input order, whose new name is the template with the
placeholder replaced by the padded decimal rendering of the saturated sum
start_number + i, followed by the original extension with its leading dot.
The bound on the list length is forced by the counterexample: the source
truncates the index to u32 before the saturating addition. -/
theorem c5_iteration_numbering (files : List FileEntry) (template : Name)
    (start_number padding : Nat)
    (hlen : files.length ≤ 4294967296)
    (hph : containsSub template placeholderTok = true) :
    ∃ ps, apply_iteration_numbering files template start_number padding = .ok ps ∧
      ps.length = files.length ∧
      ∀ i fe, files[i]? = some fe → ∃ p, ps[i]? = some p ∧
        p.original_path = fe.path ∧ p.original_name = fe.name ∧
        p.new_name = str_replace template placeholderTok
            (padNumber padding (min (start_number + i) U32MAX)) ++ extSuffix fe.path := by
  refine ⟨detect_conflicts (iterPreviews template start_number padding files 0), ?_, ?_, ?_⟩
  · rw [apply_iteration_numbering, if_pos hph]
  · rw [detect_conflicts_length, iterPreviews_length]
  · intro i fe hfe
    have hi : i < files.length := (List.getElem?_eq_some.mp hfe).1
    refine ⟨conflictMark (iterPreviews template start_number padding files 0)
        (mkIterPreview template start_number padding (0 + i) fe), ?_, ?_, ?_, ?_⟩
    · rw [detect_conflicts_getElem?, iterPreviews_getElem?, hfe]
      rfl
    · rw [conflictMark_original_path]; rfl
    · rw [conflictMark_original_name]; rfl
    · rw [conflictMark_new_name]
      show str_replace template placeholderTok
          (padNumber padding (u32SatAdd start_number ((0 + i) % 4294967296))) ++
            extSuffix fe.path = _
      have hmod : (0 + i) % 4294967296 = i := by omega
      rw [hmod]
      rfl

/-- Witness for C5: the amended theorem applied at the iteration example of
the specification. -/
theorem c5_witness :
    ∃ ps, apply_iteration_numbering c5files "photo_{n}".data 1 3 = .ok ps ∧
      ps.length = c5files.length ∧
      ∀ i fe, c5files[i]? = some fe → ∃ p, ps[i]? = some p ∧
        p.original_path = fe.path ∧ p.original_name = fe.name ∧
        p.new_name = str_replace "photo_{n}".data placeholderTok
            (padNumber 3 (min (1 + i) U32MAX)) ++ extSuffix fe.path :=
  c5_iteration_numbering c5files "photo_{n}".data 1 3 (by decide) (by decide)

/-- Counterexample for C5 as stated: on a list of 2^32 + 1 files the preview
at position 2^32 renders the number 1 (the index is truncated to u32 before
the saturating addition), not the saturated value 4294967295 demanded by the
claim formula. -/
theorem c5_counterexample :
    ((apply_iteration_numbering (List.replicate 4294967297 ⟨[], "f".data⟩)
          "{n}".data 1 0).toOption.bind
        (fun ps => (ps[4294967296]?).map (fun p => p.new_name))) = some "1".data ∧
    ("1".data : Name) ≠ padNumber 0 (min (1 + 4294967296) U32MAX) := by
  constructor
  · rw [apply_iteration_numbering, if_pos (by decide)]
    show (Option.some (detect_conflicts (iterPreviews "{n}".data 1 0
        (List.replicate 4294967297 ⟨[], "f".data⟩) 0))).bind _ = _
    rw [Option.some_bind]
    rw [detect_conflicts_getElem?, iterPreviews_getElem?, List.getElem?_replicate,
        if_pos (by omega : (4294967296 : Nat) < 4294967297)]
    simp only [Option.map_some', conflictMark_new_name]
    decide
  · decide

/-- C9 (corrected): apply_iteration_numbering pads with the caller-supplied
width without any cap — the rendered width is exactly the maximum of the
supplied padding and the natural width of the number — while the configured
maximum zero-padding width (10) is enforced only when settings are sanitized
or persisted (Settings::sanitize and the load / save clamps of
src/src/settings.rs); a padding of 11 reaches the strategy unchanged and
produces an 11-character rendering. -/
theorem c9_padding_cap :
    (∀ p n, (padNumber p n).length = max p (natRepr n).length)
    ∧ (∀ p, sanitizePadding p = min p 10)
    ∧ (∀ p, loadPadding p = min p 10)
    ∧ (apply_iteration_numbering [⟨["a.txt".data], "a.txt".data⟩] "{n}".data 1 11 =
        .ok [⟨["a.txt".data], "a.txt".data, "00000000001.txt".data, false⟩]) := by
  refine ⟨?_, ?_, fun p => rfl, by decide⟩
  · intro p n
    simp only [padNumber, List.length_append, List.length_replicate]
    omega
  · intro p
    simp only [sanitizePadding]
    split <;> omega

/-- Counterexample for C9 as stated: a call with padding 11 (above the
configured maximum of 10) renders the sequence number padded to 11
characters inside the produced preview — the strategy applies no cap. -/
theorem c9_counterexample :
    apply_iteration_numbering [⟨["a.txt".data], "a.txt".data⟩] "{n}".data 1 11 =
      .ok [⟨["a.txt".data], "a.txt".data, "00000000001.txt".data, false⟩] ∧
    (padNumber 11 1).length = 11 ∧ 10 < (padNumber 11 1).length := by decide

theorem countP_one_lt_iff {α : Type} (l : List α) (p : α → Bool) (i : Nat) (x : α)
    (hx : l[i]? = some x) (hpx : p x = true) :
    1 < l.countP p ↔ ∃ j y, j ≠ i ∧ l[j]? = some y ∧ p y = true := by
  obtain ⟨hi, hix⟩ := List.getElem?_eq_some.mp hx
  have hdecomp : l.take i ++ x :: l.drop (i + 1) = l := by
    rw [← hix, List.getElem_cons_drop l i hi, List.take_append_drop]
  have hcount : l.countP p =
      (l.take i).countP p + ((l.drop (i + 1)).countP p + 1) := by
    conv_lhs => rw [← hdecomp]
    rw [List.countP_append, List.countP_cons, hpx]
    simp
  constructor
  · intro hlt
    have hpos : 0 < (l.take i).countP p + (l.drop (i + 1)).countP p := by omega
    rcases Nat.lt_or_ge 0 ((l.take i).countP p) with hA | hA
    · obtain ⟨y, hmem, hpy⟩ := List.countP_pos_iff.mp hA
      obtain ⟨k, hk⟩ := List.mem_iff_getElem?.mp hmem
      rw [List.getElem?_take] at hk
      by_cases hki : k < i
      · rw [if_pos hki] at hk
        exact ⟨k, y, by omega, hk, hpy⟩
      · rw [if_neg hki] at hk
        cases hk
    · have hB : 0 < (l.drop (i + 1)).countP p := by omega
      obtain ⟨y, hmem, hpy⟩ := List.countP_pos_iff.mp hB
      obtain ⟨k, hk⟩ := List.mem_iff_getElem?.mp hmem
      rw [List.getElem?_drop] at hk
      exact ⟨i + 1 + k, y, by omega, hk, hpy⟩
  · rintro ⟨j, y, hji, hjy, hpy⟩
    have hymem : y ∈ l.take i ++ l.drop (i + 1) := by
      rcases Nat.lt_or_ge j i with hj | hj
      · refine List.mem_append.mpr (Or.inl ?_)
        refine List.mem_iff_getElem?.mpr ⟨j, ?_⟩
        rw [List.getElem?_take, if_pos hj]
        exact hjy
      · have hj2 : i + 1 ≤ j := by omega
        refine List.mem_append.mpr (Or.inr ?_)
        refine List.mem_iff_getElem?.mpr ⟨j - (i + 1), ?_⟩
        rw [List.getElem?_drop]
        rw [show i + 1 + (j - (i + 1)) = j by omega]
        exact hjy
    have : 0 < (l.take i ++ l.drop (i + 1)).countP p :=
      List.countP_pos_iff.mpr ⟨y, hymem, hpy⟩
    rw [List.countP_append] at this
    omega

/-- Conflict marking characterized: on a batch built with has_conflict =
false, a preview of the detect_conflicts output is marked exactly when some
other position holds the same lowercased new name. -/
theorem detect_conflicts_iff (ps : List RenamePreview)
    (hAll : ∀ p ∈ ps, p.has_conflict = false) (i : Nat) (q : RenamePreview)
    (hq : (detect_conflicts ps)[i]? = some q) :
    q.has_conflict = true ↔ ∃ j r, j ≠ i ∧ (detect_conflicts ps)[j]? = some r ∧
      lowercase r.new_name = lowercase q.new_name := by
  rw [detect_conflicts_getElem?] at hq
  obtain ⟨p0, hp0, hqv⟩ := Option.map_eq_some'.mp hq
  subst hqv
  have hp0mem : p0 ∈ ps := List.mem_iff_getElem?.mpr ⟨i, hp0⟩
  have hp0f : p0.has_conflict = false := hAll p0 hp0mem
  have hpred : (fun q => lowercase q.new_name == lowercase p0.new_name) p0 = true := by
    simp
  have hqn : (conflictMark ps p0).new_name = p0.new_name := conflictMark_new_name ps p0
  by_cases hc : 1 < ps.countP (fun q => lowercase q.new_name == lowercase p0.new_name)
  · have hmark : (conflictMark ps p0).has_conflict = true := by
      unfold conflictMark
      rw [if_pos hc]
    rw [hmark, hqn]
    simp only [true_iff]
    obtain ⟨j, y, hji, hjy, hpy⟩ := (countP_one_lt_iff ps _ i p0 hp0 hpred).mp hc
    refine ⟨j, conflictMark ps y, hji, ?_, ?_⟩
    · rw [detect_conflicts_getElem?, hjy, Option.map_some']
    · rw [conflictMark_new_name]
      exact beq_iff_eq.mp hpy
  · have hmark : conflictMark ps p0 = p0 := by
      unfold conflictMark
      rw [if_neg hc]
    rw [hmark, hp0f]
    simp only [Bool.false_eq_true, false_iff]
    rintro ⟨j, r, hji, hjr, hrn⟩
    rw [detect_conflicts_getElem?] at hjr
    obtain ⟨y, hjy, hrv⟩ := Option.map_eq_some'.mp hjr
    subst hrv
    rw [conflictMark_new_name] at hrn
    exact hc ((countP_one_lt_iff ps _ i p0 hp0 hpred).mpr
      ⟨j, y, hji, hjy, beq_iff_eq.mpr hrn⟩)

theorem findPreviews_has_conflict_false (transform : Name → Name) (files : List FileEntry) :
    ∀ p ∈ findPreviews transform files, p.has_conflict = false := by
  intro p hp
  obtain ⟨fe, _, hfe⟩ := List.mem_filterMap.mp hp
  by_cases hne : transform fe.name ≠ fe.name
  · simp only [findPreviews, if_pos hne] at hfe
    cases hfe
    rfl
  · simp only [findPreviews, if_neg hne] at hfe
    cases hfe

theorem iterPreviews_has_conflict_false (template : Name) (start_number padding : Nat) :
    ∀ (files : List FileEntry) (i : Nat) (p : RenamePreview),
      p ∈ iterPreviews template start_number padding files i → p.has_conflict = false := by
  intro files
  induction files with
  | nil => intro i p hp; cases hp
  | cons fe rest ih =>
    intro i p hp
    rcases List.mem_cons.mp hp with h | h
    · subst h; rfl
    · exact ih (i + 1) p h

/-- C6 (confirmed): in every preview batch returned by either rename
strategy, a preview has has_conflict = true exactly when another preview of
the same batch carries the same case-insensitive new name; previews with a
unique case-insensitive new name are left with has_conflict = false. -/
theorem c6_conflict_iff :
    (∀ (rex : Option (Name → Name)) (files : List FileEntry) (pattern replacement : Name)
        (use_regex case_sensitive : Bool) (ps : List RenamePreview),
        apply_find_replace rex files pattern replacement use_regex case_sensitive = .ok ps →
        ∀ (i : Nat) (q : RenamePreview), ps[i]? = some q →
          (q.has_conflict = true ↔ ∃ j r, j ≠ i ∧ ps[j]? = some r ∧
            lowercase r.new_name = lowercase q.new_name))
    ∧ (∀ (files : List FileEntry) (template : Name) (start_number padding : Nat)
        (ps : List RenamePreview),
        apply_iteration_numbering files template start_number padding = .ok ps →
        ∀ (i : Nat) (q : RenamePreview), ps[i]? = some q →
          (q.has_conflict = true ↔ ∃ j r, j ≠ i ∧ ps[j]? = some r ∧
            lowercase r.new_name = lowercase q.new_name)) := by
  constructor
  · intro rex files pattern replacement ur cs ps h i q hq
    unfold apply_find_replace at h
    split at h
    · injection h with h2
      subst h2
      simp at hq
    · split at h
      · exact Except.noConfusion h
      · split at h
        · cases rex with
          | none => exact Except.noConfusion h
          | some f =>
            injection h with h2
            subst h2
            exact detect_conflicts_iff _ (findPreviews_has_conflict_false _ files) i q hq
        · split at h
          · injection h with h2
            subst h2
            exact detect_conflicts_iff _ (findPreviews_has_conflict_false _ files) i q hq
          · injection h with h2
            subst h2
            exact detect_conflicts_iff _ (findPreviews_has_conflict_false _ files) i q hq
  · intro files template start_number padding ps h i q hq
    unfold apply_iteration_numbering at h
    split at h
    · injection h with h2
      subst h2
      exact detect_conflicts_iff _
        (fun p hp => iterPreviews_has_conflict_false template start_number padding files 0 p hp)
        i q hq
    · exact Except.noConfusion h

/-- Witness for C6: the conflict characterization applied to a concrete
find-replace batch producing a case-insensitive collision. -/
theorem c6_witness :
    c6p0.has_conflict = true ↔ ∃ j r, j ≠ 0 ∧ c6out[j]? = some r ∧
      lowercase r.new_name = lowercase c6p0.new_name :=
  c6_conflict_iff.1 none c6files "txt".data "md".data false true c6out (by decide) 0 c6p0
    (by decide)

/-- C7 (code bug): the case-sensitive example of the claim holds, but the
case-insensitive branch hands the replacement string to the regex engine
without escaping, so dollar references are expanded: with replacement pic$0
the matched text (in its original casing) is re-inserted instead of the
literal characters p i c $ 0, contradicting the claimed verbatim insertion
for every replacement string. -/
theorem c7_replacement_not_verbatim :
    replace_case_insensitive "img_01.png".data "IMG".data "pic".data = "pic_01.png".data ∧
    replace_case_insensitive "img_01.png".data "IMG".data "pic$0".data = "picimg_01.png".data ∧
    "picimg_01.png".data ≠ "pic$0_01.png".data := by decide

theorem containsSub_nil_pat (s : Name) : containsSub s [] = true := by
  cases s <;> simp [containsSub, List.isPrefixOf, List.isEmpty]

theorem ciContains_nil_pat (s : Name) : ciContains s [] = true := by
  cases s <;> simp [ciContains, ciPrefix, List.isPrefixOf, List.isEmpty]

theorem strReplaceGo_id (pat repl : Name) :
    ∀ (fuel : Nat) (s : Name), containsSub s pat = false →
      strReplaceGo pat repl fuel s = s := by
  intro fuel
  induction fuel with
  | zero => intro s _; cases s <;> rfl
  | succ fuel ih =>
    intro s h
    match s with
    | [] => rfl
    | c :: rest =>
      rw [containsSub] at h
      rcases Bool.or_eq_false_iff.mp h with ⟨h1, h2⟩
      simp only [strReplaceGo, h1, Bool.false_eq_true, if_false]
      rw [ih rest h2]

theorem str_replace_id (s pat repl : Name) (h : containsSub s pat = false) :
    str_replace s pat repl = s := by
  match pat with
  | [] => rw [containsSub_nil_pat] at h; cases h
  | p :: prest => exact strReplaceGo_id (p :: prest) repl s.length s h

theorem ciReplaceGo_id (pat repl : Name) :
    ∀ (fuel : Nat) (s : Name), ciContains s pat = false →
      ciReplaceGo pat repl fuel s = s := by
  intro fuel
  induction fuel with
  | zero => intro s _; cases s <;> rfl
  | succ fuel ih =>
    intro s h
    match s with
    | [] => rfl
    | c :: rest =>
      rw [ciContains] at h
      rcases Bool.or_eq_false_iff.mp h with ⟨h1, h2⟩
      simp only [ciReplaceGo, h1, Bool.false_eq_true, if_false]
      rw [ih rest h2]

theorem replace_case_insensitive_id (s pat repl : Name) (h : ciContains s pat = false) :
    replace_case_insensitive s pat repl = s := by
  match pat with
  | [] => rw [ciContains_nil_pat] at h; cases h
  | p :: prest => exact ciReplaceGo_id (p :: prest) repl s.length s h

theorem findPreviews_map_orig (transform : Name → Name) (files : List FileEntry) :
    (findPreviews transform files).map (fun p => (p.original_path, p.original_name)) =
      (files.filter (fun fe => decide (transform fe.name ≠ fe.name))).map
        (fun fe => (fe.path, fe.name)) := by
  induction files with
  | nil => rfl
  | cons fe rest ih =>
    by_cases hne : transform fe.name ≠ fe.name
    · simp [findPreviews, List.filterMap_cons, List.filter_cons, hne] at ih ⊢
      exact ih
    · simp [findPreviews, List.filterMap_cons, List.filter_cons, hne] at ih ⊢
      exact ih

theorem findPreviews_new_name (transform : Name → Name) (files : List FileEntry) :
    ∀ p ∈ findPreviews transform files,
      p.new_name = transform p.original_name ∧ p.new_name ≠ p.original_name := by
  intro p hp
  obtain ⟨fe, _, hfe⟩ := List.mem_filterMap.mp hp
  by_cases hne : transform fe.name ≠ fe.name
  · simp only [if_pos hne] at hfe
    cases hfe
    exact ⟨rfl, hne⟩
  · simp only [if_neg hne] at hfe
    cases hfe

theorem findPreviews_eq_nil (transform : Name → Name) (files : List FileEntry)
    (h : ∀ fe ∈ files, transform fe.name = fe.name) :
    findPreviews transform files = [] := by
  induction files with
  | nil => rfl
  | cons fe rest ih =>
    have h1 : transform fe.name = fe.name := h fe (List.mem_cons_self _ _)
    simp only [findPreviews, List.filterMap_cons, h1]
    simp only [ne_eq, not_true_eq_false, if_false, reduceIte]
    exact ih (fun fe2 h2 => h fe2 (List.mem_cons_of_mem _ h2))

theorem detect_conflicts_map_orig (ps : List RenamePreview) :
    (detect_conflicts ps).map (fun p => (p.original_path, p.original_name)) =
      ps.map (fun p => (p.original_path, p.original_name)) := by
  rw [detect_conflicts, List.map_map]
  exact List.map_congr_left (fun p _ => by
    simp [Function.comp, conflictMark_original_path, conflictMark_original_name])

theorem detect_conflicts_fields (ps : List RenamePreview) (i : Nat) (q : RenamePreview)
    (hq : (detect_conflicts ps)[i]? = some q) :
    ∃ p0, ps[i]? = some p0 ∧ q.new_name = p0.new_name ∧
      q.original_path = p0.original_path ∧ q.original_name = p0.original_name := by
  rw [detect_conflicts_getElem?] at hq
  obtain ⟨p0, hp0, hv⟩ := Option.map_eq_some'.mp hq
  subst hv
  exact ⟨p0, hp0, conflictMark_new_name ps p0, conflictMark_original_path ps p0,
    conflictMark_original_name ps p0⟩

/-- Characterization of one ok-branch of apply_find_replace: the previews of
detect_conflicts (findPreviews transform files). -/
theorem findPreviews_char (transform : Name → Name) (files : List FileEntry) :
    ((detect_conflicts (findPreviews transform files)).map
        (fun p => (p.original_path, p.original_name)) =
      (files.filter (fun fe => decide (transform fe.name ≠ fe.name))).map
        (fun fe => (fe.path, fe.name)))
    ∧ (∀ (i : Nat) (q : RenamePreview),
        (detect_conflicts (findPreviews transform files))[i]? = some q →
        q.new_name = transform q.original_name ∧ q.new_name ≠ q.original_name)
    ∧ ((∀ fe ∈ files, transform fe.name = fe.name) →
        detect_conflicts (findPreviews transform files) = []) := by
  refine ⟨?_, ?_, ?_⟩
  · rw [detect_conflicts_map_orig, findPreviews_map_orig]
  · intro i q hq
    obtain ⟨p0, hp0, hn, hop, hon⟩ := detect_conflicts_fields _ i q hq
    have hmem : p0 ∈ findPreviews transform files := List.mem_iff_getElem?.mpr ⟨i, hp0⟩
    obtain ⟨h1, h2⟩ := findPreviews_new_name transform files p0 hmem
    rw [hn, hon, h1]
    exact ⟨rfl, by rw [← h1]; exact h2⟩
  · intro h
    rw [findPreviews_eq_nil transform files h]
    rfl

/-- C8 (confirmed): for a nonempty pattern within the length limit (and a
pattern the engine compiles, in regex mode), the find-replace preview set
consists of exactly the files whose transformed name differs from the
original, in input order; a pattern occurring in no file name (in the
occurrence sense of the active mode) yields an empty preview set. -/
theorem c8_preview_set :
    ∀ (rex : Option (Name → Name)) (files : List FileEntry) (pattern replacement : Name)
      (use_regex case_sensitive : Bool),
      pattern ≠ [] → pattern.length ≤ MAX_PATTERN_LENGTH →
      (use_regex = true → rex.isSome = true) →
      ∃ ps, apply_find_replace rex files pattern replacement use_regex case_sensitive = .ok ps ∧
        (ps.map (fun p => (p.original_path, p.original_name)) =
          (files.filter (fun fe =>
            decide (frTransform rex pattern replacement use_regex case_sensitive fe.name
              ≠ fe.name))).map (fun fe => (fe.path, fe.name))) ∧
        (∀ (i : Nat) (q : RenamePreview), ps[i]? = some q →
          q.new_name = frTransform rex pattern replacement use_regex case_sensitive
              q.original_name ∧
          q.new_name ≠ q.original_name) ∧
        (use_regex = false →
          (∀ fe ∈ files, (if case_sensitive then containsSub fe.name pattern
            else ciContains fe.name pattern) = false) → ps = []) := by
  intro rex files pattern replacement ur cs h1 h2 h3
  have hp2 : ¬(MAX_PATTERN_LENGTH < pattern.length) := by omega
  cases ur with
  | true =>
    obtain ⟨f, rfl⟩ := Option.isSome_iff_exists.mp (h3 rfl)
    refine ⟨detect_conflicts (findPreviews f files), ?_, ?_, ?_, ?_⟩
    · rw [apply_find_replace.eq_def, if_neg h1, if_neg hp2, if_pos rfl]
    · exact (findPreviews_char f files).1
    · exact (findPreviews_char f files).2.1
    · intro habs
      exact Bool.noConfusion habs
  | false =>
    cases cs with
    | true =>
      refine ⟨detect_conflicts (findPreviews (fun n => str_replace n pattern replacement) files),
          ?_, ?_, ?_, ?_⟩
      · rw [apply_find_replace.eq_def, if_neg h1, if_neg hp2, if_neg (Bool.false_ne_true), if_pos rfl]
      · exact (findPreviews_char _ files).1
      · exact (findPreviews_char _ files).2.1
      · intro _ hocc
        refine (findPreviews_char _ files).2.2 (fun fe hfe => ?_)
        have := hocc fe hfe
        rw [if_pos rfl] at this
        exact str_replace_id fe.name pattern replacement this
    | false =>
      refine ⟨detect_conflicts
          (findPreviews (fun n => replace_case_insensitive n pattern replacement) files),
          ?_, ?_, ?_, ?_⟩
      · rw [apply_find_replace.eq_def, if_neg h1, if_neg hp2, if_neg (Bool.false_ne_true),
          if_neg (Bool.false_ne_true)]
      · exact (findPreviews_char _ files).1
      · exact (findPreviews_char _ files).2.1
      · intro _ hocc
        refine (findPreviews_char _ files).2.2 (fun fe hfe => ?_)
        have := hocc fe hfe
        rw [if_neg (Bool.false_ne_true)] at this
        exact replace_case_insensitive_id fe.name pattern replacement this

/-- Witness for C8: the preview-set characterization applied to a concrete
literal find-replace call. -/
theorem c8_witness :
    ∃ ps, apply_find_replace none c8files "a".data "x".data false true = .ok ps ∧
      (ps.map (fun p => (p.original_path, p.original_name)) =
        (c8files.filter (fun fe =>
          decide (frTransform none "a".data "x".data false true fe.name ≠ fe.name))).map
          (fun fe => (fe.path, fe.name))) ∧
      (∀ (i : Nat) (q : RenamePreview), ps[i]? = some q →
        q.new_name = frTransform none "a".data "x".data false true q.original_name ∧
        q.new_name ≠ q.original_name) ∧
      (false = false →
        (∀ fe ∈ c8files, (if true then containsSub fe.name "a".data
          else ciContains fe.name "a".data) = false) → ps = []) :=
  c8_preview_set none c8files "a".data "x".data false true (by decide) (by decide)
    (fun h => by cases h)

theorem fsLookup_cons (q : FsPath) (v : Nat) (fs : FS) (p : FsPath) :
    fsLookup ((q, v) :: fs) p = if p = q then some v else fsLookup fs p := rfl

theorem fsLookup_remove_ne (fs : FS) (q p : FsPath) (h : p ≠ q) :
    fsLookup (fsRemove fs q) p = fsLookup fs p := by
  induction fs with
  | nil => rfl
  | cons e rest ih =>
    match e with
    | (q1, v1) =>
      rw [fsRemove]
      by_cases he : q1 = q
      · rw [if_pos he, ih, fsLookup_cons, if_neg (fun hp => h (hp.trans he))]
      · rw [if_neg he, fsLookup_cons, fsLookup_cons]
        by_cases hpq : p = q1
        · rw [if_pos hpq, if_pos hpq]
        · rw [if_neg hpq, if_neg hpq]
          exact ih

theorem fsRename_some (fs : FS) (src dst : FsPath) (v : Nat) (h : fsLookup fs src = some v) :
    fsRename fs src dst = some ((dst, v) :: fsRemove (fsRemove fs src) dst) := by
  rw [fsRename, h]

theorem checkTargets_targetExists (fs : FS) (origs : List FsPath) :
    ∀ (ps : List RenamePreview) (seen : List FsPath),
      (ps.map targetPath).Nodup →
      (∀ t ∈ ps.map targetPath, t ∉ seen) →
      (∃ p ∈ ps, badTarget fs origs p) →
      checkTargets fs origs ps seen = .error .targetExists := by
  intro ps
  induction ps with
  | nil =>
    intro seen _ _ hex
    obtain ⟨p, hp, _⟩ := hex
    cases hp
  | cons p rest ih =>
    intro seen hnodup hdisj hex
    rw [checkTargets]
    by_cases hbad : badTarget fs origs p
    · have hb2 := hbad
      unfold badTarget at hb2
      rw [if_pos hb2]
    · have hb2 := hbad
      unfold badTarget at hb2
      rw [if_neg hb2]
      have hnotseen : targetPath p ∉ seen :=
        hdisj (targetPath p) (by simp)
      rw [if_neg hnotseen]
      simp only [List.map_cons, List.nodup_cons] at hnodup
      apply ih (targetPath p :: seen) hnodup.2
      · intro t ht
        simp only [List.mem_cons, not_or]
        refine ⟨?_, hdisj t (by simp [ht])⟩
        intro heq
        exact hnodup.1 (heq ▸ ht)
      · obtain ⟨p2, hp2, hbx⟩ := hex
        rcases List.mem_cons.mp hp2 with rfl | hmem
        · exact absurd hbx hbad
        · exact ⟨p2, hmem, hbx⟩

theorem checkTargets_duplicate (fs : FS) (origs : List FsPath) :
    ∀ (ps : List RenamePreview) (seen : List FsPath),
      (∀ p ∈ ps, ¬ badTarget fs origs p) →
      (¬ (ps.map targetPath).Nodup ∨ ∃ t ∈ ps.map targetPath, t ∈ seen) →
      checkTargets fs origs ps seen = .error .duplicateTarget := by
  intro ps
  induction ps with
  | nil =>
    intro seen _ hdup
    rcases hdup with hnd | ⟨t, ht, _⟩
    · exact absurd List.nodup_nil hnd
    · cases ht
  | cons p rest ih =>
    intro seen hgood hdup
    have hg := hgood p (by simp)
    unfold badTarget at hg
    rw [checkTargets, if_neg hg]
    by_cases hseen : targetPath p ∈ seen
    · rw [if_pos hseen]
    · rw [if_neg hseen]
      apply ih (targetPath p :: seen) (fun q hq => hgood q (List.mem_cons_of_mem p hq))
      rcases hdup with hnd | ⟨t, ht, hts⟩
      · by_cases hmem : targetPath p ∈ rest.map targetPath
        · exact Or.inr ⟨targetPath p, hmem, by simp⟩
        · refine Or.inl (fun hnd2 => hnd ?_)
          simp only [List.map_cons, List.nodup_cons]
          exact ⟨hmem, hnd2⟩
      · simp only [List.map_cons, List.mem_cons] at ht
        rcases ht with rfl | hmem
        · exact absurd hts hseen
        · exact Or.inr ⟨t, hmem, List.mem_cons_of_mem _ hts⟩

theorem phase1_error_renameFailed (pid : Name) :
    ∀ (ps : List RenamePreview) (fs : FS) (tr : Trace) (fs2 : FS) (tr2 : Trace)
      (e : RenameError),
      phase1 pid fs tr ps = (fs2, tr2, .error e) → e = .renameFailed := by
  intro ps
  induction ps with
  | nil =>
    intro fs tr fs2 tr2 e h
    rw [phase1] at h
    injection h with h1 h23
    injection h23 with h2 h3
    exact Except.noConfusion h3
  | cons p rest ih =>
    intro fs tr fs2 tr2 e h
    rw [phase1] at h
    by_cases hskip : p.original_name = p.new_name
    · rw [if_pos hskip] at h
      exact ih _ _ _ _ _ h
    · rw [if_neg hskip] at h
      split at h
      · injection h with h1 h23
        injection h23 with h2 h3
        injection h3 with h4
        exact h4.symm
      · split at h
        · injection h with h1 h23
          injection h23 with h2 h3
          exact Except.noConfusion h3
        · exact ih _ _ _ _ _ h

theorem phase2_error_renameFailed :
    ∀ (pairs : List (FsPath × FsPath)) (fs : FS) (tr : Trace) (c : Nat) (fs2 : FS)
      (tr2 : Trace) (e : RenameError),
      phase2 fs tr c pairs = (fs2, tr2, .error e) → e = .renameFailed := by
  intro pairs
  induction pairs with
  | nil =>
    intro fs tr c fs2 tr2 e h
    rw [phase2] at h
    injection h with h1 h23
    injection h23 with h2 h3
    exact Except.noConfusion h3
  | cons pr rest ih =>
    obtain ⟨t, f⟩ := pr
    intro fs tr c fs2 tr2 e h
    rw [phase2] at h
    rcases hrn : fsRename fs t f with _ | fs3
    · rw [hrn] at h
      injection h with h1 h23
      injection h23 with h2 h3
      injection h3 with h4
      exact h4.symm
    · rw [hrn] at h
      exact ih _ _ _ _ _ _ h

theorem phase1_ok_char (pid : Name) :
    ∀ (ps : List RenamePreview) (fs : FS) (tr : Trace) (fs2 : FS) (tr2 : Trace)
      (pairs : List (FsPath × FsPath)),
      phase1 pid fs tr ps = (fs2, tr2, .ok pairs) →
      pairs = (changedPreviews ps).map (fun p => (tempPathOf pid p, finalPathOf p)) ∧
      tr2 = tr ++ (changedPreviews ps).map (fun p => (p.original_path, tempPathOf pid p)) := by
  intro ps
  induction ps with
  | nil =>
    intro fs tr fs2 tr2 pairs h
    rw [phase1] at h
    injection h with h1 h23
    injection h23 with h2 h3
    injection h3 with h4
    subst h2
    exact ⟨h4.symm, by simp [changedPreviews]⟩
  | cons p rest ih =>
    intro fs tr fs2 tr2 pairs h
    rw [phase1] at h
    by_cases hskip : p.original_name = p.new_name
    · rw [if_pos hskip] at h
      have hch : changedPreviews (p :: rest) = changedPreviews rest := by
        simp [changedPreviews, List.filter_cons, hskip]
      rw [hch]
      exact ih _ _ _ _ _ h
    · rw [if_neg hskip] at h
      have hch : changedPreviews (p :: rest) = p :: changedPreviews rest := by
        simp [changedPreviews, List.filter_cons, hskip]
      split at h
      · injection h with h1 h23
        injection h23 with h2 h3
        exact Except.noConfusion h3
      · split at h
        · rename_i fs4 tr4 prs hrec
          injection h with h1 h23
          injection h23 with h2 h3
          injection h3 with h4
          obtain ⟨hpairs, htr⟩ := ih _ _ _ _ _ hrec
          subst h2
          rw [hch]
          constructor
          · rw [← h4, hpairs]
            rfl
          · rw [htr, List.map_cons, List.append_assoc]
            rfl
        · rename_i hcon
          exact absurd h (by
            intro hh
            exact hcon _ _ _ hh)

theorem phase2_ok_char :
    ∀ (pairs : List (FsPath × FsPath)) (fs : FS) (tr : Trace) (c : Nat) (fs2 : FS)
      (tr2 : Trace) (n : Nat),
      phase2 fs tr c pairs = (fs2, tr2, .ok n) →
      n = c + pairs.length ∧ tr2 = tr ++ pairs := by
  intro pairs
  induction pairs with
  | nil =>
    intro fs tr c fs2 tr2 n h
    rw [phase2] at h
    injection h with h1 h23
    injection h23 with h2 h3
    injection h3 with h4
    subst h2
    refine ⟨?_, by simp⟩
    simp only [List.length_nil]
    omega
  | cons pr rest ih =>
    obtain ⟨t, f⟩ := pr
    intro fs tr c fs2 tr2 n h
    rw [phase2] at h
    rcases hrn : fsRename fs t f with _ | fs3
    · rw [hrn] at h
      injection h with h1 h23
      injection h23 with h2 h3
      exact Except.noConfusion h3
    · rw [hrn] at h
      obtain ⟨hn, htr⟩ := ih _ _ _ _ _ _ h
      constructor
      · rw [hn]
        simp
        omega
      · rw [htr, List.append_assoc]
        rfl

/-- C3 (confirmed): a successful validate_and_rename returns exactly the
number of previews whose new name differs from their original name, and the
trace of rename calls consists exactly of the phase-1 moves of those changed
previews followed by their phase-2 moves — skipped previews are touched by no
rename call; the empty batch returns zero with no mutation.  The read-only
existence checks of the validation pass are not mutations and are outside the
trace. -/
theorem c3_success_count :
    (∀ (pid : Name) (fs : FS) (previews : List RenamePreview) (fs2 : FS) (tr : Trace)
        (n : Nat),
      validate_and_rename pid fs previews = (fs2, tr, .ok n) →
      n = (changedPreviews previews).length ∧
      tr = (changedPreviews previews).map (fun p => (p.original_path, tempPathOf pid p)) ++
        (changedPreviews previews).map (fun p => (tempPathOf pid p, finalPathOf p)))
    ∧ (∀ (pid : Name) (fs : FS), validate_and_rename pid fs [] = (fs, [], .ok 0)) := by
  constructor
  · intro pid fs previews fs2 tr n h
    rw [validate_and_rename.eq_def] at h
    split at h
    · rename_i hnil
      subst hnil
      injection h with h1 h23
      injection h23 with h2 h3
      injection h3 with h4
      subst h2
      exact ⟨by simp [changedPreviews, ← h4], by simp [changedPreviews]⟩
    · split at h
      · injection h with h1 h23
        injection h23 with h2 h3
        exact Except.noConfusion h3
      · split at h
        · rename_i fs1 tr1 e1 hp1
          injection h with h1 h23
          injection h23 with h2 h3
          exact Except.noConfusion h3
        · rename_i fs1 tr1 pairs hp1
          obtain ⟨hpairs, htr1⟩ := phase1_ok_char pid previews fs [] fs1 tr1 pairs hp1
          obtain ⟨hn, htr⟩ := phase2_ok_char pairs fs1 tr1 0 fs2 tr n h
          constructor
          · rw [hn, hpairs]
            simp
          · rw [htr, htr1, hpairs]
            simp
  · intro pid fs
    rfl

/-- Witness for C3: the count and trace characterization applied at a
concrete successful commit. -/
theorem c3_witness :
    validate_and_rename "1".data c3fs c3previews =
      ([(["b".data], 0), (["c".data], 2)],
       [(["a".data], [".rename_temp_1_b".data]), ([".rename_temp_1_b".data], ["b".data])],
       .ok 1) ∧
    (1 = (changedPreviews c3previews).length ∧
      [(["a".data], [".rename_temp_1_b".data]), ([".rename_temp_1_b".data], ["b".data])] =
        (changedPreviews c3previews).map
          (fun p => (p.original_path, tempPathOf "1".data p)) ++
        (changedPreviews c3previews).map
          (fun p => (tempPathOf "1".data p, finalPathOf p))) :=
  ⟨by decide,
   c3_success_count.1 "1".data c3fs c3previews
     [(["b".data], 0), (["c".data], 2)]
     [(["a".data], [".rename_temp_1_b".data]), ([".rename_temp_1_b".data], ["b".data])]
     1 (by decide)⟩

/-- C1 (confirmed): taking each validation condition in isolation — when the
batch targets are pairwise distinct, a target existing on disk outside the
batch original paths makes validate_and_rename fail with targetExists; when
no target has that defect, two previews resolving to one target make it fail
with duplicateTarget; and under either of these two errors the filesystem is
returned unchanged with an empty rename trace, so every file remains under
its original name.  (When both defects occur in one batch the scan order of
the source decides which error is reported.) -/
theorem c1_validation_failures :
    ∀ (pid : Name) (fs : FS) (previews : List RenamePreview),
      ((previews.map targetPath).Nodup →
        (∃ p ∈ previews,
          badTarget fs (previews.map (fun q => q.original_path)) p) →
        validate_and_rename pid fs previews = (fs, [], .error .targetExists))
      ∧ ((∀ p ∈ previews,
          ¬ badTarget fs (previews.map (fun q => q.original_path)) p) →
        ¬ (previews.map targetPath).Nodup →
        validate_and_rename pid fs previews = (fs, [], .error .duplicateTarget))
      ∧ (∀ (fs2 : FS) (tr : Trace) (e : RenameError),
          validate_and_rename pid fs previews = (fs2, tr, .error e) →
          e = .targetExists ∨ e = .duplicateTarget → fs2 = fs ∧ tr = []) := by
  intro pid fs previews
  refine ⟨?_, ?_, ?_⟩
  · intro hnd hex
    have hne : previews ≠ [] := by
      rintro rfl
      obtain ⟨p, hp, _⟩ := hex
      cases hp
    rw [validate_and_rename.eq_def, if_neg hne,
      checkTargets_targetExists fs _ previews [] hnd (by simp) hex]
  · intro hgood hnnd
    have hne : previews ≠ [] := by
      rintro rfl
      exact hnnd (by simp)
    rw [validate_and_rename.eq_def, if_neg hne,
      checkTargets_duplicate fs _ previews [] hgood (Or.inl hnnd)]
  · intro fs2 tr e h hor
    rw [validate_and_rename.eq_def] at h
    split at h
    · injection h with h1 h23
      injection h23 with h2 h3
      exact Except.noConfusion h3
    · split at h
      · injection h with h1 h23
        injection h23 with h2 h3
        exact ⟨h1.symm, h2.symm⟩
      · split at h
        · rename_i fs1 tr1 e1 hp1
          injection h with h1 h23
          injection h23 with h2 h3
          injection h3 with h4
          have he1 : e1 = .renameFailed := phase1_error_renameFailed pid previews fs [] fs1 tr1 e1 hp1
          rw [he1] at h4
          rcases hor with rfl | rfl <;> exact RenameError.noConfusion h4
        · rename_i fs1 tr1 pairs hp1
          have he : e = .renameFailed := phase2_error_renameFailed pairs fs1 tr1 0 fs2 tr e h
          rcases hor with rfl | rfl <;> exact RenameError.noConfusion he

/-- Witness for C1: both validation-failure conclusions at concrete batches. -/
theorem c1_witness :
    validate_and_rename "1".data c1fsA c1psA = (c1fsA, [], .error .targetExists) ∧
    validate_and_rename "1".data [] c1psB = ([], [], .error .duplicateTarget) :=
  ⟨(c1_validation_failures "1".data c1fsA c1psA).1 (by decide) (by decide),
   (c1_validation_failures "1".data [] c1psB).2.1 (by decide) (by decide)⟩

theorem phase1_nil (pid : Name) (fs : FS) (tr : Trace) :
    phase1 pid fs tr [] = (fs, tr, .ok []) := rfl

theorem phase1_cons_changed_ok (pid : Name) (fs : FS) (tr : Trace) (p : RenamePreview)
    (rest : List RenamePreview) (fs3 fs4 : FS) (tr4 : Trace)
    (pairs : List (FsPath × FsPath))
    (hne : ¬ p.original_name = p.new_name)
    (hr : fsRename fs p.original_path (tempPathOf pid p) = some fs3)
    (hrest : phase1 pid fs3 (tr ++ [(p.original_path, tempPathOf pid p)]) rest =
      (fs4, tr4, .ok pairs)) :
    phase1 pid fs tr (p :: rest) =
      (fs4, tr4, .ok ((tempPathOf pid p, finalPathOf p) :: pairs)) := by
  rw [phase1, if_neg hne, hr]
  show (match phase1 pid fs3 (tr ++ [(p.original_path, tempPathOf pid p)]) rest with
    | (fs5, tr5, .ok pairs2) =>
      (fs5, tr5, Except.ok ((tempPathOf pid p, finalPathOf p) :: pairs2))
    | err => err) = _
  rw [hrest]

theorem phase2_nil (fs : FS) (tr : Trace) (c : Nat) :
    phase2 fs tr c [] = (fs, tr, .ok c) := rfl

theorem phase2_cons (fs fs3 : FS) (tr : Trace) (c : Nat) (t f : FsPath)
    (rest : List (FsPath × FsPath)) (hr : fsRename fs t f = some fs3) :
    phase2 fs tr c ((t, f) :: rest) = phase2 fs3 (tr ++ [(t, f)]) (c + 1) rest := by
  rw [phase2, hr]

theorem validate_eval (pid : Name) (fs : FS) (previews : List RenamePreview)
    (hne : previews ≠ [])
    (hck : checkTargets fs (previews.map (fun p => p.original_path)) previews [] = .ok ())
    (fs1 : FS) (tr1 : Trace) (pairs : List (FsPath × FsPath))
    (hph : phase1 pid fs [] previews = (fs1, tr1, .ok pairs)) :
    validate_and_rename pid fs previews = phase2 fs1 tr1 0 pairs := by
  rw [validate_and_rename.eq_def, if_neg hne, hck]
  show (match phase1 pid fs [] previews with
    | (fs2, tr2, .error e) => (fs2, tr2, Except.error e)
    | (fs2, tr2, .ok pairs2) => phase2 fs2 tr2 0 pairs2) = _
  rw [hph]

/-- C2 (confirmed): a two-preview same-directory swap (A to B, B to A) with
free temporary paths validates, performs both phase-1 moves to the
process-prefixed temporary names before either phase-2 move to a final name
(the trace lists the four rename calls in exactly that order), returns the
count 2, and afterwards the file originally at A is at B and the file
originally at B is at A. -/
theorem c2_two_phase_swap (pid : Name) (dir : FsPath) (A B : Name) (fs : FS)
    (idA idB : Nat) (cf1 cf2 : Bool)
    (hAB : A ≠ B)
    (h1 : fsLookup fs (dir ++ [A]) = some idA)
    (h2 : fsLookup fs (dir ++ [B]) = some idB)
    (h3 : fsLookup fs (dir ++ [tempName pid B]) = none)
    (h4 : fsLookup fs (dir ++ [tempName pid A]) = none) :
    ∃ fs4,
      validate_and_rename pid fs
        [⟨dir ++ [A], A, B, cf1⟩,
         ⟨dir ++ [B], B, A, cf2⟩] =
        (fs4,
         [(dir ++ [A], dir ++ [tempName pid B]),
          (dir ++ [B], dir ++ [tempName pid A]),
          (dir ++ [tempName pid B], dir ++ [B]),
          (dir ++ [tempName pid A], dir ++ [A])],
         .ok 2) ∧
      fsLookup fs4 (dir ++ [B]) = some idA ∧
      fsLookup fs4 (dir ++ [A]) = some idB := by
  have hpAB : (dir ++ [A] : FsPath) ≠ dir ++ [B] := by
    intro h
    exact hAB (by simpa using List.append_cancel_left h)
  have htABtB : tempName pid A ≠ tempName pid B := by
    intro h
    have h' : tempPre pid ++ A = tempPre pid ++ B := h
    exact hAB (List.append_cancel_left h')
  have htAtB : (dir ++ [tempName pid A] : FsPath) ≠ dir ++ [tempName pid B] := by
    intro h
    exact htABtB (by simpa using List.append_cancel_left h)
  have hne_tB_pA : (dir ++ [tempName pid B] : FsPath) ≠ dir ++ [A] := by
    intro h
    have h3' := h3
    rw [h, h1] at h3'
    exact Option.noConfusion h3'
  have hne_tB_pB : (dir ++ [tempName pid B] : FsPath) ≠ dir ++ [B] := by
    intro h
    have h3' := h3
    rw [h, h2] at h3'
    exact Option.noConfusion h3'
  have hne_tA_pA : (dir ++ [tempName pid A] : FsPath) ≠ dir ++ [A] := by
    intro h
    have h4' := h4
    rw [h, h1] at h4'
    exact Option.noConfusion h4'
  have hne_tA_pB : (dir ++ [tempName pid A] : FsPath) ≠ dir ++ [B] := by
    intro h
    have h4' := h4
    rw [h, h2] at h4'
    exact Option.noConfusion h4'
  have htp1 : targetPath ⟨dir ++ [A], A, B, cf1⟩ = dir ++ [B] := by
    simp [targetPath, parentJoin, List.dropLast_concat]
  have htp2 : targetPath ⟨dir ++ [B], B, A, cf2⟩ = dir ++ [A] := by
    simp [targetPath, parentJoin, List.dropLast_concat]
  have htmp1 : tempPathOf pid ⟨dir ++ [A], A, B, cf1⟩ = dir ++ [tempName pid B] := by
    simp [tempPathOf, List.dropLast_concat]
  have htmp2 : tempPathOf pid ⟨dir ++ [B], B, A, cf2⟩ = dir ++ [tempName pid A] := by
    simp [tempPathOf, List.dropLast_concat]
  have hfin1 : finalPathOf ⟨dir ++ [A], A, B, cf1⟩ = dir ++ [B] := by
    simp [finalPathOf, List.dropLast_concat]
  have hfin2 : finalPathOf ⟨dir ++ [B], B, A, cf2⟩ = dir ++ [A] := by
    simp [finalPathOf, List.dropLast_concat]
  have hck : checkTargets fs [dir ++ [A], dir ++ [B]]
      [⟨dir ++ [A], A, B, cf1⟩,
       ⟨dir ++ [B], B, A, cf2⟩]
      [] = .ok () := by
    rw [checkTargets, htp1]
    rw [if_neg (fun hc => hc.2 (by simp))]
    rw [if_neg (List.not_mem_nil _)]
    rw [checkTargets, htp2]
    rw [if_neg (fun hc => hc.2 (by simp))]
    rw [if_neg (by simp [hpAB] : ¬ (dir ++ [A] : FsPath) ∈ [dir ++ [B]])]
    rw [checkTargets]
  have hr1 := fsRename_some fs (dir ++ [A]) (dir ++ [tempName pid B]) idA h1
  set fs1 : FS := (dir ++ [tempName pid B], idA) ::
    fsRemove (fsRemove fs (dir ++ [A])) (dir ++ [tempName pid B]) with hfs1
  have hl_fs1_pB : fsLookup fs1 (dir ++ [B]) = some idB := by
    rw [hfs1, fsLookup_cons, if_neg (Ne.symm hne_tB_pB)]
    rw [fsLookup_remove_ne _ _ _ (Ne.symm hne_tB_pB)]
    rw [fsLookup_remove_ne _ _ _ (Ne.symm hpAB)]
    exact h2
  have hr2 := fsRename_some fs1 (dir ++ [B]) (dir ++ [tempName pid A]) idB hl_fs1_pB
  set fs2 : FS := (dir ++ [tempName pid A], idB) ::
    fsRemove (fsRemove fs1 (dir ++ [B])) (dir ++ [tempName pid A]) with hfs2
  have hstep2 : phase1 pid fs1 [(dir ++ [A], dir ++ [tempName pid B])]
      [⟨dir ++ [B], B, A, cf2⟩] =
      (fs2, [(dir ++ [A], dir ++ [tempName pid B]), (dir ++ [B], dir ++ [tempName pid A])],
       .ok [(dir ++ [tempName pid A], dir ++ [A])]) := by
    have hx := phase1_cons_changed_ok pid fs1 [(dir ++ [A], dir ++ [tempName pid B])]
      ⟨dir ++ [B], B, A, cf2⟩
      [] fs2 fs2
      ([(dir ++ [A], dir ++ [tempName pid B])] ++
        [(dir ++ [B], tempPathOf pid ⟨dir ++ [B], B, A, cf2⟩)])
      []
      (fun h => hAB h.symm)
      (by rw [htmp2]; exact hr2)
      (phase1_nil pid fs2 _)
    rw [htmp2, hfin2] at hx
    exact hx
  have hstep1 : phase1 pid fs []
      [⟨dir ++ [A], A, B, cf1⟩,
       ⟨dir ++ [B], B, A, cf2⟩] =
      (fs2, [(dir ++ [A], dir ++ [tempName pid B]), (dir ++ [B], dir ++ [tempName pid A])],
       .ok [(dir ++ [tempName pid B], dir ++ [B]), (dir ++ [tempName pid A], dir ++ [A])]) := by
    have hx := phase1_cons_changed_ok pid fs []
      ⟨dir ++ [A], A, B, cf1⟩
      [⟨dir ++ [B], B, A, cf2⟩]
      fs1 fs2
      [(dir ++ [A], dir ++ [tempName pid B]), (dir ++ [B], dir ++ [tempName pid A])]
      [(dir ++ [tempName pid A], dir ++ [A])]
      (fun h => hAB h)
      (by rw [htmp1]; exact hr1)
      (by rw [htmp1]; exact hstep2)
    rw [htmp1, hfin1] at hx
    exact hx
  have hl_fs2_tB : fsLookup fs2 (dir ++ [tempName pid B]) = some idA := by
    rw [hfs2, fsLookup_cons, if_neg (Ne.symm htAtB)]
    rw [fsLookup_remove_ne _ _ _ (Ne.symm htAtB)]
    rw [fsLookup_remove_ne _ _ _ hne_tB_pB]
    rw [hfs1, fsLookup_cons, if_pos rfl]
  have hr3 := fsRename_some fs2 (dir ++ [tempName pid B]) (dir ++ [B]) idA hl_fs2_tB
  set fs3 : FS := (dir ++ [B], idA) ::
    fsRemove (fsRemove fs2 (dir ++ [tempName pid B])) (dir ++ [B]) with hfs3
  have hl_fs3_tA : fsLookup fs3 (dir ++ [tempName pid A]) = some idB := by
    rw [hfs3, fsLookup_cons, if_neg hne_tA_pB]
    rw [fsLookup_remove_ne _ _ _ hne_tA_pB]
    rw [fsLookup_remove_ne _ _ _ htAtB]
    rw [hfs2, fsLookup_cons, if_pos rfl]
  have hr4 := fsRename_some fs3 (dir ++ [tempName pid A]) (dir ++ [A]) idB hl_fs3_tA
  set fs4 : FS := (dir ++ [A], idB) ::
    fsRemove (fsRemove fs3 (dir ++ [tempName pid A])) (dir ++ [A]) with hfs4
  have hph2eval : phase2 fs2
      [(dir ++ [A], dir ++ [tempName pid B]), (dir ++ [B], dir ++ [tempName pid A])] 0
      [(dir ++ [tempName pid B], dir ++ [B]), (dir ++ [tempName pid A], dir ++ [A])] =
      (fs4,
       [(dir ++ [A], dir ++ [tempName pid B]), (dir ++ [B], dir ++ [tempName pid A]),
        (dir ++ [tempName pid B], dir ++ [B]), (dir ++ [tempName pid A], dir ++ [A])],
       .ok 2) := by
    rw [phase2_cons _ _ _ _ _ _ _ hr3]
    rw [phase2_cons _ _ _ _ _ _ _ hr4]
    rw [phase2_nil]
    simp
  refine ⟨fs4, ?_, ?_, ?_⟩
  · have hv := validate_eval pid fs
      [⟨dir ++ [A], A, B, cf1⟩, ⟨dir ++ [B], B, A, cf2⟩]
      (by simp) hck fs2 _ _ hstep1
    rw [hv, hph2eval]
  · rw [hfs4, fsLookup_cons, if_neg (Ne.symm hpAB)]
    rw [fsLookup_remove_ne _ _ _ (Ne.symm hpAB)]
    rw [fsLookup_remove_ne _ _ _ (Ne.symm hne_tA_pB)]
    rw [hfs3, fsLookup_cons, if_pos rfl]
  · rw [hfs4, fsLookup_cons, if_pos rfl]

/-- Witness for C2: the swap theorem applied to two concrete files a.txt and
b.txt in the root directory of the model. -/
theorem c2_witness :
    ∃ fs4,
      validate_and_rename "7".data [(["a.txt".data], 0), (["b.txt".data], 1)]
        [⟨[] ++ ["a.txt".data], "a.txt".data, "b.txt".data, false⟩,
         ⟨[] ++ ["b.txt".data], "b.txt".data, "a.txt".data, false⟩] =
        (fs4,
         [([] ++ ["a.txt".data], [] ++ [tempName "7".data "b.txt".data]),
          ([] ++ ["b.txt".data], [] ++ [tempName "7".data "a.txt".data]),
          ([] ++ [tempName "7".data "b.txt".data], [] ++ ["b.txt".data]),
          ([] ++ [tempName "7".data "a.txt".data], [] ++ ["a.txt".data])],
         .ok 2) ∧
      fsLookup fs4 ([] ++ ["b.txt".data]) = some 0 ∧
      fsLookup fs4 ([] ++ ["a.txt".data]) = some 1 :=
  c2_two_phase_swap "7".data [] "a.txt".data "b.txt".data
    [(["a.txt".data], 0), (["b.txt".data], 1)] 0 1 false false
    (by decide) (by decide) (by decide) (by decide) (by decide)
